import Mathlib

/-!
Verification of the Tailwind-plugin color utility generator
(`packages/wedges/src/tw-plugin/utils/colors.ts`).

JavaScript objects are modelled as association lists `List (String × α)`
that record insertion order; property writes update the value in place when
the key is present and append otherwise, matching JavaScript
object-assignment semantics. `Object.entries`/`Object.keys` see own
enumerable properties only, but the `in` operator also consults the
prototype chain, so membership tests written with `in` additionally hit the
`Object.prototype` member names.
-/

namespace Wedges

/-- Own-property lookup `obj[k]` on a JavaScript object. -/
def alistLookup {α : Type} : List (String × α) → String → Option α
  | [], _ => none
  | p :: t, k => if k = p.1 then some p.2 else alistLookup t k

/-- The key list (`Object.keys`) of a JavaScript object. -/
def keysOf {α : Type} (l : List (String × α)) : List String :=
  l.map Prod.fst

/-- Property assignment `obj[k] = v`: updates in place when `k` is already
present, appends otherwise. -/
def setKey {α : Type} : List (String × α) → String → α → List (String × α)
  | [], k, v => [(k, v)]
  | p :: t, k, v => if p.1 = k then (p.1, v) :: t else p :: setKey t k v

/-- `Object.assign(target, source)`: assigns every entry of `source` into
`target`, in order. -/
def objectAssign {α : Type} (target source : List (String × α)) : List (String × α) :=
  source.foldl (fun t p => setKey t p.1 p.2) target

/-- A value of the `Colors` palette type: either a literal color string or a
shaded family (`Record<string, string>`). -/
inductive PaletteEntry : Type
  | lit (value : String)
  | family (shades : List (String × String))
deriving DecidableEq

/-- The `Colors` palette type from `../foundation`. -/
abbrev Colors : Type := List (String × PaletteEntry)

/-- Member names every plain JavaScript object inherits from
`Object.prototype`; the `in` operator reports these as present even on an
object that has no own key of that name. -/
def objectPrototypeProps : List String :=
  [ "constructor", "hasOwnProperty", "isPrototypeOf", "propertyIsEnumerable"
  , "toLocaleString", "toString", "valueOf", "__proto__"
  , "__defineGetter__", "__defineSetter__", "__lookupGetter__", "__lookupSetter__"
  ]

/-- A JavaScript value produced by the expression
`themeColors[colorKey]?.DEFAULT ?? themeColors[colorKey]`: a string; the
family object itself when a shaded family has no `DEFAULT` shade; or the
inherited `Object.prototype` member of that name when the key was found on
the prototype chain rather than as an own key (such a member has no
`DEFAULT` property, so the `??` falls through to the member itself). -/
inductive JSStr : Type
  | str (s : String)
  | objVal (shades : List (String × String))
  | protoMember (name : String)
deriving DecidableEq

/-- `getColorFromPalette(keyOrColor, themeColors)` from `colors.ts`:
if `keyOrColor in themeColors`, return
`themeColors[colorKey]?.DEFAULT ?? themeColors[colorKey]`,
else return `keyOrColor` as-is. The `in` test is true for own keys and for
the `Object.prototype` member names; own keys shadow inherited ones on
access. -/
def getColorFromPalette (keyOrColor : String) (themeColors : Colors) : JSStr :=
  match alistLookup themeColors keyOrColor with
  | some (PaletteEntry.family shades) =>
      match alistLookup shades "DEFAULT" with
      | some d => JSStr.str d
      | none => JSStr.objVal shades
  | some (PaletteEntry.lit s) => JSStr.str s
  | none =>
      if keyOrColor ∈ objectPrototypeProps then JSStr.protoMember keyOrColor
      else JSStr.str keyOrColor

/-- Modelled from the spec: the default foundation palette (`../foundation`
is not under src/). The spec fixes only its shape — named entries that are
shaded families with a distinguished `DEFAULT` shade, among them `wg-white`,
`wg-dark` and `wg-blue` — so representative literal values are used here. -/
def palette : Colors :=
  [ ("wg-white", PaletteEntry.family [("DEFAULT", "#FFFFFF")])
  , ("wg-dark", PaletteEntry.family [("DEFAULT", "#121212")])
  , ("wg-blue", PaletteEntry.family [("DEFAULT", "#0EA5E9"), ("100", "#E0F2FE")])
  ]

/-- Member access `palette[key].DEFAULT` on the default palette (total in the
TypeScript typing; the fallback branches are unreachable for keys the palette
contains). -/
def paletteDefaultOf (key : String) : String :=
  match alistLookup palette key with
  | some (PaletteEntry.family shades) => (alistLookup shades "DEFAULT").getD ""
  | some (PaletteEntry.lit s) => s
  | none => ""

/-- `const defaultLightBgColor = palette["wg-white"].DEFAULT`. -/
def defaultLightBgColor : String := paletteDefaultOf "wg-white"

/-- `const defaultDarkBgColor = palette["wg-dark"].DEFAULT`. -/
def defaultDarkBgColor : String := paletteDefaultOf "wg-dark"

/-- Modelled from the spec: the per-mode facet of `ThemeableColorOptions`
(`../plugin` is not under src/) — an optional `background` that is a palette
key or a literal color value. -/
structure ModeColorOptions : Type where
  background : Option String
deriving DecidableEq

/-- Modelled from the spec: `ThemeableColorOptions` (`../plugin` is not under
src/) — optional `light` and `dark` facets. -/
structure ThemeableColorOptions : Type where
  light : Option ModeColorOptions
  dark : Option ModeColorOptions
deriving DecidableEq

/-- A CSS declaration block or a nested block (media query contents). -/
inductive CSSTree : Type
  | leaf (props : List (String × JSStr))
  | node (children : List (String × CSSTree))

/-- The `colors?.light?.background` optional chain. -/
def userLightBackground (colors : Option ThemeableColorOptions) : Option String :=
  (colors.bind ThemeableColorOptions.light).bind ModeColorOptions.background

/-- The `colors?.dark?.background` optional chain. -/
def userDarkBackground (colors : Option ThemeableColorOptions) : Option String :=
  (colors.bind ThemeableColorOptions.dark).bind ModeColorOptions.background

/-- The local `lightBgColor` of `getBaseThemableColors`:
`getColorFromPalette(colors?.light?.background ?? defaultLightBgColor,
themeColors ?? palette)`. -/
def lightBgColor (colors : Option ThemeableColorOptions) (themeColors : Option Colors) : JSStr :=
  getColorFromPalette ((userLightBackground colors).getD defaultLightBgColor)
    (themeColors.getD palette)

/-- The local `darkBgColor` of `getBaseThemableColors`:
`getColorFromPalette(colors?.dark?.background ?? defaultDarkBgColor,
themeColors ?? palette)`. -/
def darkBgColor (colors : Option ThemeableColorOptions) (themeColors : Option Colors) : JSStr :=
  getColorFromPalette ((userDarkBackground colors).getD defaultDarkBgColor)
    (themeColors.getD palette)

/-- `getBaseThemableColors(colors?, themeColors?)` from `colors.ts`. -/
def getBaseThemableColors (colors : Option ThemeableColorOptions)
    (themeColors : Option Colors) : List (String × CSSTree) :=
  [ (":root, .light", CSSTree.leaf [("--wg-background", lightBgColor colors themeColors)])
  , ("@media (prefers-color-scheme: dark)",
      CSSTree.node [(":root", CSSTree.leaf [("--wg-background", darkBgColor colors themeColors)])])
  , (".dark", CSSTree.leaf [("--wg-background", darkBgColor colors themeColors)])
  ]

/-- A generated utility declaration block
`{ backgroundColor: value, [BACKGROUND_PROPERTY]: value }`; the second field
is the `--wg-background` custom property. -/
structure BgDecl : Type where
  backgroundColor : String
  wgBackground : String
deriving DecidableEq

/-- `createSimpleColorUtility(colorName, colorValue)` from `colors.ts`. -/
def createSimpleColorUtility (colorName colorValue : String) : List (String × BgDecl) :=
  [(".wg-background-" ++ colorName, BgDecl.mk colorValue colorValue)]

/-- The utility class key assigned by `createShadedColorUtility` for one
shade: the branch on `shade === "DEFAULT"` chooses between
`.wg-background-${colorName}` and `.wg-background-${colorName}-${shade}`
(the assigned declaration block is identical in both branches). -/
def shadedClassName (colorName shade : String) : String :=
  if shade = "DEFAULT" then ".wg-background-" ++ colorName
  else ".wg-background-" ++ colorName ++ "-" ++ shade

/-- `createShadedColorUtility(colorName, colorValues)` from `colors.ts`:
loops over `Object.entries(colorValues)` assigning one class per shade into
an initially empty object. -/
def createShadedColorUtility (colorName : String)
    (colorValues : List (String × String)) : List (String × BgDecl) :=
  colorValues.foldl
    (fun utilities q => setKey utilities (shadedClassName colorName q.1) (BgDecl.mk q.2 q.2)) []

/-- A dynamically typed (`Record<string, any>`) input value for
`generateExtendedColorUtilities`. Object fields and array elements are the
strings of a well-typed palette. -/
inductive JSValue : Type
  | vstr (s : String)
  | vnum (n : Int)
  | vbool (b : Bool)
  | vundef
  | vnull
  | vobj (fields : List (String × String))
  | varr (elems : List String)
deriving DecidableEq

/-- The JavaScript `typeof` operator on a `JSValue`; note
`typeof null === "object"`. -/
def jsTypeof : JSValue → String
  | JSValue.vstr _ => "string"
  | JSValue.vnum _ => "number"
  | JSValue.vbool _ => "boolean"
  | JSValue.vundef => "undefined"
  | JSValue.vnull => "object"
  | JSValue.vobj _ => "object"
  | JSValue.varr _ => "object"

/-- The decimal string a JavaScript array index becomes as a property key
(`Object.entries` on an array). -/
def natKey (n : Nat) : String :=
  if n = 0 then "0" else ((Nat.digits 10 n).reverse.map Nat.digitChar).asString

/-- `Object.entries` on an array: index/value pairs with decimal string
keys, in index order. -/
def arrayEntries (elems : List String) : List (String × String) :=
  elems.enum.map (fun q => (natKey q.1, q.2))

/-- The loop body of `generateExtendedColorUtilities` threaded through the
input entries. The `typeof colorValue === "string"` branch calls
`createSimpleColorUtility`; the `typeof colorValue === "object"` branch
(strings aside, that is `null`, plain objects and arrays) calls
`createShadedColorUtility`, whose `Object.entries(colorValues)` throws a
`TypeError` on `null` (modelled here at the call site by
`Except.error`) and enumerates index/value pairs for arrays; all other
values (`number`, `boolean`, `undefined`) fall through both branches. -/
def generateGo (utilities : List (String × BgDecl)) :
    List (String × JSValue) → Except String (List (String × BgDecl))
  | [] => Except.ok utilities
  | p :: rest =>
    match p.2 with
    | JSValue.vstr s =>
        generateGo (objectAssign utilities (createSimpleColorUtility p.1 s)) rest
    | JSValue.vnull => Except.error "TypeError: Cannot convert undefined or null to object"
    | JSValue.vobj fields =>
        generateGo (objectAssign utilities (createShadedColorUtility p.1 fields)) rest
    | JSValue.varr elems =>
        generateGo (objectAssign utilities (createShadedColorUtility p.1 (arrayEntries elems))) rest
    | _ => generateGo utilities rest

/-- `generateExtendedColorUtilities(colors)` from `colors.ts`: folds the
per-entry utilities into `let utilities = {}` via `Object.assign`. -/
def generateExtendedColorUtilities (colors : List (String × JSValue)) :
    Except String (List (String × BgDecl)) :=
  generateGo [] colors

/-- Whether an input value survives the `typeof` dispatch of
`generateExtendedColorUtilities` (strings and `typeof`-objects, `null`
included); `number`, `boolean` and `undefined` values are skipped. -/
def relevantValue : JSValue → Bool
  | JSValue.vstr _ => true
  | JSValue.vobj _ => true
  | JSValue.varr _ => true
  | JSValue.vnull => true
  | _ => false

/-- The raw per-entry class emissions of the expander, in emission order
(before later assignments overwrite earlier ones). -/
def entryEmits : String × JSValue → List (String × BgDecl)
  | (n, JSValue.vstr s) => [(".wg-background-" ++ n, BgDecl.mk s s)]
  | (n, JSValue.vobj fields) => fields.map (fun q => (shadedClassName n q.1, BgDecl.mk q.2 q.2))
  | (n, JSValue.varr elems) =>
      (arrayEntries elems).map (fun q => (shadedClassName n q.1, BgDecl.mk q.2 q.2))
  | _ => []

/-- All class emissions of a whole input, in emission order. -/
def flatEmits : List (String × JSValue) → List (String × BgDecl)
  | [] => []
  | p :: rest => entryEmits p ++ flatEmits rest

/-- The class name generated for a `(colorName, shade)` pair, the unshaded
literal case distinguished as `none`. -/
def pairClass : String × Option String → String
  | (n, none) => ".wg-background-" ++ n
  | (n, some s) => shadedClassName n s

/-- The `(colorName, shade)` pairs an input mapping contributes to the
expander's output, the unshaded/literal case distinguished as `none`. -/
def pairsOf : List (String × JSValue) → List (String × Option String)
  | [] => []
  | p :: rest =>
    (match p.2 with
      | JSValue.vstr _ => [(p.1, (none : Option String))]
      | JSValue.vobj fields => fields.map (fun q => (p.1, some q.1))
      | JSValue.varr elems => (arrayEntries elems).map (fun q => (p.1, some q.1))
      | _ => []) ++ pairsOf rest

/-- First-hit choice between two optional lookup results. -/
def optOr {α : Type} : Option α → Option α → Option α
  | some a, _ => some a
  | none, b => b

/-! ## Helper lemmas -/

theorem optOr_none_right {α : Type} (a : Option α) : optOr a none = a := by
  cases a <;> rfl

theorem keysOf_append {α : Type} (l1 l2 : List (String × α)) :
    keysOf (l1 ++ l2) = keysOf l1 ++ keysOf l2 :=
  List.map_append Prod.fst l1 l2

theorem setKey_not_mem {α : Type} (l : List (String × α)) (k : String) (v : α)
    (h : k ∉ keysOf l) : setKey l k v = l ++ [(k, v)] := by
  induction l with
  | nil => rfl
  | cons p t ih =>
    simp only [keysOf, List.map_cons, List.mem_cons] at h
    push_neg at h
    simp only [setKey, List.cons_append]
    rw [if_neg (fun he => h.1 he.symm), ih h.2]

theorem mem_keysOf_setKey {α : Type} :
    ∀ (l : List (String × α)) (k : String) (v : α) (m : String),
      m ∈ keysOf (setKey l k v) → m ∈ keysOf l ∨ m = k := by
  intro l
  induction l with
  | nil =>
    intro k v m h
    simp only [setKey, keysOf, List.map_cons, List.map_nil, List.mem_singleton] at h
    exact Or.inr h
  | cons p t ih =>
    intro k v m h
    by_cases hp : p.1 = k
    · simp only [setKey, if_pos hp, keysOf, List.map_cons, List.mem_cons] at h ⊢
      rcases h with h | h
      · exact Or.inl (Or.inl h)
      · exact Or.inl (Or.inr h)
    · simp only [setKey, if_neg hp, keysOf, List.map_cons, List.mem_cons] at h ⊢
      rcases h with h | h
      · exact Or.inl (Or.inl h)
      · rcases ih k v m h with h2 | h2
        · exact Or.inl (Or.inr h2)
        · exact Or.inr h2

theorem keysOf_setKey_nodup {α : Type} :
    ∀ (l : List (String × α)) (k : String) (v : α),
      (keysOf l).Nodup → (keysOf (setKey l k v)).Nodup := by
  intro l
  induction l with
  | nil => intro k v _; simp [setKey, keysOf]
  | cons p t ih =>
    intro k v h
    simp only [keysOf, List.map_cons, List.nodup_cons] at h
    by_cases hp : p.1 = k
    · simp only [setKey, if_pos hp, keysOf, List.map_cons, List.nodup_cons]
      exact h
    · simp only [setKey, if_neg hp, keysOf, List.map_cons, List.nodup_cons]
      refine ⟨fun hmem => ?_, ih k v h.2⟩
      rcases mem_keysOf_setKey t k v p.1 hmem with h2 | h2
      · exact h.1 h2
      · exact hp h2

theorem alistLookup_setKey {α : Type} :
    ∀ (l : List (String × α)) (k : String) (v : α) (m : String),
      alistLookup (setKey l k v) m = if m = k then some v else alistLookup l m := by
  intro l
  induction l with
  | nil => intro k v m; rfl
  | cons p t ih =>
    intro k v m
    by_cases hp : p.1 = k
    · have hs : setKey (p :: t) k v = (p.1, v) :: t := by simp [setKey, hp]
      rw [hs]
      by_cases hm : m = p.1
      · simp [alistLookup, hm, hp ▸ hm, hp]
      · have hmk : ¬ m = k := fun he => hm (he.trans hp.symm)
        simp [alistLookup, hm, hmk]
    · have hs : setKey (p :: t) k v = p :: setKey t k v := by simp [setKey, hp]
      rw [hs]
      by_cases hm : m = p.1
      · have hmk : ¬ m = k := fun he => hp (hm.symm.trans he)
        simp [alistLookup, hm, hmk, hp]
      · simp [alistLookup, hm, ih]

theorem alistLookup_append {α : Type} :
    ∀ (l1 l2 : List (String × α)) (k : String),
      alistLookup (l1 ++ l2) k = optOr (alistLookup l1 k) (alistLookup l2 k) := by
  intro l1
  induction l1 with
  | nil => intro l2 k; rfl
  | cons p t ih =>
    intro l2 k
    by_cases hk : k = p.1
    · simp [alistLookup, hk, optOr]
    · simp [alistLookup, hk, ih, optOr]

theorem foldl_setKey_eq_append {α β : Type} (key : α → String) (val : α → β) :
    ∀ (l : List α) (acc : List (String × β)),
      (l.map key).Nodup → (∀ a ∈ l, key a ∉ keysOf acc) →
      l.foldl (fun t a => setKey t (key a) (val a)) acc
        = acc ++ l.map (fun a => (key a, val a)) := by
  intro l
  induction l with
  | nil => intro acc _ _; simp
  | cons x t ih =>
    intro acc hnd hdisj
    simp only [List.map_cons, List.nodup_cons] at hnd
    simp only [List.foldl_cons, List.map_cons]
    rw [setKey_not_mem acc (key x) (val x) (hdisj x (List.mem_cons_self x t))]
    rw [ih (acc ++ [(key x, val x)]) hnd.2 ?_]
    · simp
    · intro a ha
      rw [keysOf_append]
      simp only [List.mem_append]
      push_neg
      refine ⟨hdisj a (List.mem_cons_of_mem x ha), ?_⟩
      simp only [keysOf, List.map_cons, List.map_nil, List.mem_singleton]
      intro he
      exact hnd.1 (he ▸ List.mem_map_of_mem key ha)

theorem mem_keysOf_foldl_setKey {α β : Type} (key : α → String) (val : α → β) :
    ∀ (l : List α) (acc : List (String × β)) (m : String),
      m ∈ keysOf (l.foldl (fun t a => setKey t (key a) (val a)) acc) →
      m ∈ keysOf acc ∨ ∃ a ∈ l, m = key a := by
  intro l
  induction l with
  | nil => intro acc m h; exact Or.inl h
  | cons x t ih =>
    intro acc m h
    simp only [List.foldl_cons] at h
    rcases ih (setKey acc (key x) (val x)) m h with h2 | h2
    · rcases mem_keysOf_setKey acc (key x) (val x) m h2 with h3 | h3
      · exact Or.inl h3
      · exact Or.inr ⟨x, List.mem_cons_self x t, h3⟩
    · rcases h2 with ⟨a, ha, he⟩
      exact Or.inr ⟨a, List.mem_cons_of_mem x ha, he⟩

theorem nodup_keys_foldl_setKey {β : Type} :
    ∀ (l : List (String × β)) (acc : List (String × β)),
      (keysOf acc).Nodup →
      (keysOf (l.foldl (fun t q => setKey t q.1 q.2) acc)).Nodup := by
  intro l
  induction l with
  | nil => intro acc h; exact h
  | cons x t ih =>
    intro acc h
    simp only [List.foldl_cons]
    exact ih (setKey acc x.1 x.2) (keysOf_setKey_nodup acc x.1 x.2 h)

theorem alistLookup_foldl_setKey {β : Type} :
    ∀ (l : List (String × β)) (acc : List (String × β)) (k : String),
      alistLookup (l.foldl (fun t q => setKey t q.1 q.2) acc) k
        = optOr (alistLookup l.reverse k) (alistLookup acc k) := by
  intro l
  induction l with
  | nil => intro acc k; rfl
  | cons x t ih =>
    intro acc k
    simp only [List.foldl_cons, List.reverse_cons]
    rw [ih (setKey acc x.1 x.2) k, alistLookup_setKey, alistLookup_append]
    cases halt : alistLookup t.reverse k
    · simp only [optOr]
      by_cases hk : k = x.1
      · simp [alistLookup, if_pos hk, optOr, hk]
      · simp [alistLookup, if_neg hk, optOr]
    · simp only [optOr]

theorem alistLookup_eq_none {α : Type} (l : List (String × α)) (k : String)
    (h : k ∉ keysOf l) : alistLookup l k = none := by
  induction l with
  | nil => rfl
  | cons p t ih =>
    simp only [keysOf, List.map_cons, List.mem_cons] at h
    push_neg at h
    simp only [alistLookup, if_neg h.1]
    exact ih h.2

theorem getColorFromPalette_not_mem (s : String) (tc : Colors) (h : s ∉ keysOf tc)
    (hp : s ∉ objectPrototypeProps) : getColorFromPalette s tc = JSStr.str s := by
  unfold getColorFromPalette
  rw [alistLookup_eq_none tc s h]
  simp [hp]

/-! ## String lemmas for generated class names -/

theorem string_append_cancel_left (a b c : String) (h : a ++ b = a ++ c) : b = c := by
  have hd := congrArg String.data h
  simp only [String.data_append] at hd
  exact String.ext (List.append_cancel_left hd)

theorem string_ne_append_of_pos (a s : String) (hs : 0 < s.length) : a ≠ a ++ s := by
  intro h
  have := congrArg String.length h
  rw [String.length_append] at this
  omega

theorem hyphen_data : ("-" : String).data = ['-'] := rfl

theorem no_hyphen_chain (s1 s2 : List Char) :
    ∀ (a b : List Char), '-' ∉ a → '-' ∉ b →
      a ++ '-' :: s1 = b ++ '-' :: s2 → a = b ∧ s1 = s2 := by
  intro a
  induction a with
  | nil =>
    intro b ha hb h
    cases b with
    | nil =>
      simp only [List.nil_append, List.cons.injEq] at h
      exact ⟨rfl, h.2⟩
    | cons y t =>
      simp only [List.nil_append, List.cons_append, List.cons.injEq] at h
      exact absurd (h.1 ▸ List.mem_cons_self y t) hb
  | cons x a' ih =>
    intro b ha hb h
    cases b with
    | nil =>
      simp only [List.cons_append, List.nil_append, List.cons.injEq] at h
      exact absurd (h.1 ▸ List.mem_cons_self x a') ha
    | cons y t =>
      simp only [List.cons_append, List.cons.injEq] at h
      have ha2 : '-' ∉ a' := fun hm => ha (List.mem_cons_of_mem x hm)
      have hb2 : '-' ∉ t := fun hm => hb (List.mem_cons_of_mem y hm)
      obtain ⟨he1, he2⟩ := ih t ha2 hb2 h.2
      exact ⟨by rw [h.1, he1], he2⟩

theorem unshaded_eq_unshaded (n1 n2 : String)
    (h : ".wg-background-" ++ n1 = ".wg-background-" ++ n2) : n1 = n2 :=
  string_append_cancel_left _ _ _ h

theorem unshaded_ne_shaded (n1 n2 s : String) (h1 : '-' ∉ n1.data) :
    ".wg-background-" ++ n1 ≠ ".wg-background-" ++ n2 ++ "-" ++ s := by
  intro h
  have hd := congrArg String.data h
  simp only [String.data_append, hyphen_data, List.append_assoc, List.singleton_append] at hd
  have hc := List.append_cancel_left hd
  exact h1 (hc ▸ List.mem_append.2 (Or.inr (List.mem_cons_self '-' s.data)))

theorem shaded_eq_shaded (n1 n2 s1 s2 : String) (h1 : '-' ∉ n1.data) (h2 : '-' ∉ n2.data)
    (h : ".wg-background-" ++ n1 ++ "-" ++ s1 = ".wg-background-" ++ n2 ++ "-" ++ s2) :
    n1 = n2 ∧ s1 = s2 := by
  have hd := congrArg String.data h
  simp only [String.data_append, hyphen_data, List.append_assoc, List.singleton_append] at hd
  have hc := List.append_cancel_left hd
  obtain ⟨he1, he2⟩ := no_hyphen_chain s1.data s2.data n1.data n2.data h1 h2 hc
  exact ⟨String.ext he1, String.ext he2⟩

theorem shadedClassName_injective (name : String) :
    Function.Injective (shadedClassName name) := by
  intro s1 s2 h
  unfold shadedClassName at h
  by_cases e1 : s1 = "DEFAULT" <;> by_cases e2 : s2 = "DEFAULT"
  · rw [e1, e2]
  · rw [if_pos e1, if_neg e2, String.append_assoc, String.append_assoc] at h
    exact absurd h (string_ne_append_of_pos _ _ (by simp [String.length_append]))
  · rw [if_neg e1, if_pos e2, String.append_assoc, String.append_assoc] at h
    exact absurd h.symm (string_ne_append_of_pos _ _ (by simp [String.length_append]))
  · rw [if_neg e1, if_neg e2] at h
    exact string_append_cancel_left (".wg-background-" ++ name ++ "-") s1 s2
      (by rw [String.append_assoc, String.append_assoc] at h ⊢; exact h)

/-! ## Decimal array index keys -/

theorem digitChar_ne_D (d : Nat) (h : d < 10) : Nat.digitChar d ≠ 'D' := by
  have hall : ∀ x : Fin 10, Nat.digitChar x.val ≠ 'D' := by decide
  exact hall ⟨d, h⟩

theorem digitChar_inj_lt (a b : Nat) (ha : a < 10) (hb : b < 10)
    (h : Nat.digitChar a = Nat.digitChar b) : a = b := by
  have hall : ∀ x y : Fin 10, Nat.digitChar x.val = Nat.digitChar y.val → x = y := by decide
  exact congrArg Fin.val (hall ⟨a, ha⟩ ⟨b, hb⟩ h)

theorem map_digitChar_inj :
    ∀ (l1 l2 : List Nat), (∀ x ∈ l1, x < 10) → (∀ x ∈ l2, x < 10) →
      l1.map Nat.digitChar = l2.map Nat.digitChar → l1 = l2 := by
  intro l1
  induction l1 with
  | nil =>
    intro l2 _ _ h
    cases l2 with
    | nil => rfl
    | cons y s => simp at h
  | cons x t ih =>
    intro l2 h1 h2 h
    cases l2 with
    | nil => simp at h
    | cons y s =>
      simp only [List.map_cons, List.cons.injEq] at h
      have hx := h1 x (List.mem_cons_self x t)
      have hy := h2 y (List.mem_cons_self y s)
      rw [digitChar_inj_lt x y hx hy h.1,
        ih s (fun a ha => h1 a (List.mem_cons_of_mem x ha))
          (fun a ha => h2 a (List.mem_cons_of_mem y ha)) h.2]

theorem digits_singleton_of_map_digitChar_eq (b : Nat) (c : Char)
    (h : ((Nat.digits 10 b).reverse.map Nat.digitChar).asString = ([c].asString)) :
    ∃ d, Nat.digits 10 b = [d] ∧ Nat.digitChar d = c := by
  rw [List.asString_inj] at h
  rcases hr : (Nat.digits 10 b).reverse with _ | ⟨d, r⟩
  · rw [hr] at h
    simp at h
  · rw [hr] at h
    simp only [List.map_cons, List.cons.injEq] at h
    have hrt : r.map Nat.digitChar = [] := h.2
    have hr0 : r = [] := by
      cases r with
      | nil => rfl
      | cons z zs => simp at hrt
    refine ⟨d, ?_, h.1⟩
    have : (Nat.digits 10 b).reverse = [d] := by rw [hr, hr0]
    rw [← List.reverse_reverse (Nat.digits 10 b), this]
    rfl

theorem natKey_ne_zero_str (b : Nat) (hb : b ≠ 0) : natKey b ≠ "0" := by
  unfold natKey
  rw [if_neg hb]
  intro h
  obtain ⟨d, hds, hdc⟩ :=
    digits_singleton_of_map_digitChar_eq b '0' (by rw [h]; rfl)
  have hd10 : d < 10 :=
    Nat.digits_lt_base (by norm_num) (hds ▸ List.mem_singleton.2 rfl)
  have hd0 : d = 0 := digitChar_inj_lt d 0 hd10 (by norm_num) hdc
  have hofd : b = Nat.ofDigits 10 (Nat.digits 10 b) := (Nat.ofDigits_digits 10 b).symm
  rw [hds, hd0] at hofd
  simp [Nat.ofDigits] at hofd
  exact hb hofd

theorem natKey_injective : Function.Injective natKey := by
  intro a b h
  by_cases ha : a = 0 <;> by_cases hb : b = 0
  · rw [ha, hb]
  · exact absurd (ha ▸ h.symm : natKey b = natKey 0) (by unfold natKey; rw [if_pos rfl]; exact natKey_ne_zero_str b hb)
  · exact absurd (hb ▸ h : natKey a = natKey 0) (by unfold natKey; rw [if_pos rfl]; exact natKey_ne_zero_str a ha)
  · unfold natKey at h
    rw [if_neg ha, if_neg hb, List.asString_inj] at h
    have hda : ∀ x ∈ (Nat.digits 10 a).reverse, x < 10 := fun x hx =>
      Nat.digits_lt_base (by norm_num) (List.mem_reverse.1 hx)
    have hdb : ∀ x ∈ (Nat.digits 10 b).reverse, x < 10 := fun x hx =>
      Nat.digits_lt_base (by norm_num) (List.mem_reverse.1 hx)
    have hrev := map_digitChar_inj _ _ hda hdb h
    have hdig : Nat.digits 10 a = Nat.digits 10 b := List.reverse_inj.1 hrev
    calc a = Nat.ofDigits 10 (Nat.digits 10 a) := (Nat.ofDigits_digits 10 a).symm
    _ = Nat.ofDigits 10 (Nat.digits 10 b) := by rw [hdig]
    _ = b := Nat.ofDigits_digits 10 b

theorem natKey_ne_DEFAULT (n : Nat) : natKey n ≠ "DEFAULT" := by
  unfold natKey
  by_cases h : n = 0
  · rw [if_pos h]
    decide
  · rw [if_neg h]
    intro he
    have hd : ((Nat.digits 10 n).reverse.map Nat.digitChar)
        = ['D', 'E', 'F', 'A', 'U', 'L', 'T'] := by
      rw [← List.asString_inj, he]
      rfl
    rcases hr : (Nat.digits 10 n).reverse with _ | ⟨d, r⟩
    · rw [hr] at hd
      simp at hd
    · rw [hr] at hd
      simp only [List.map_cons, List.cons.injEq] at hd
      have hdm : d ∈ Nat.digits 10 n := List.mem_reverse.1 (hr ▸ List.mem_cons_self d r)
      exact digitChar_ne_D d (Nat.digits_lt_base (by norm_num) hdm) hd.1

/-! ## Claims about the color resolver -/

/-- C4 (amended): for every string that is neither an own key of the given
palette nor one of the `Object.prototype` member names (which the JS
in-operator finds on the prototype chain), `getColorFromPalette` returns it
unchanged, for every palette. -/
theorem c4_resolver_passthrough (s : String) (tc : Colors) (h : s ∉ keysOf tc)
    (hp : s ∉ objectPrototypeProps) : getColorFromPalette s tc = JSStr.str s :=
  getColorFromPalette_not_mem s tc h hp

theorem c4_resolver_passthrough_witness :
    getColorFromPalette "#ABCDEF" palette = JSStr.str "#ABCDEF" :=
  c4_resolver_passthrough "#ABCDEF" palette (by decide) (by decide)

/-- C4 counterexample: the membership test `keyOrColor in themeColors` uses
the JS in-operator, which consults the prototype chain, so `"toString"` is
`in` every plain palette object; the resolver then returns the inherited
`Object.prototype.toString` member — not the string `"toString"` — even for
the empty palette, refuting the universal pass-through claim. -/
theorem c4_prototype_chain_counterexample :
    getColorFromPalette "toString" [] = JSStr.protoMember "toString"
    ∧ JSStr.protoMember "toString" ≠ JSStr.str "toString" :=
  ⟨by decide, by decide⟩

/-- C5: for every key present in the palette, `getColorFromPalette` returns
the `DEFAULT` shade's value when the entry is a shaded family, and the entry
itself when the entry is a literal color string. -/
theorem c5_resolver_palette_hit (name : String) (tc : Colors) :
    (∀ s, alistLookup tc name = some (PaletteEntry.lit s) →
      getColorFromPalette name tc = JSStr.str s)
    ∧ (∀ shades d, alistLookup tc name = some (PaletteEntry.family shades) →
      alistLookup shades "DEFAULT" = some d →
      getColorFromPalette name tc = JSStr.str d) := by
  constructor
  · intro s h
    simp [getColorFromPalette, h]
  · intro shades d h hd
    simp [getColorFromPalette, h, hd]

theorem c5_resolver_palette_hit_witness :
    getColorFromPalette "red" [("red", PaletteEntry.lit "#FF0000")] = JSStr.str "#FF0000"
    ∧ getColorFromPalette "wg-blue" palette = JSStr.str "#0EA5E9" :=
  ⟨(c5_resolver_palette_hit "red" [("red", PaletteEntry.lit "#FF0000")]).1 "#FF0000" rfl,
   (c5_resolver_palette_hit "wg-blue" palette).2 [("DEFAULT", "#0EA5E9"), ("100", "#E0F2FE")]
     "#0EA5E9" rfl rfl⟩

/-! ## Claims about the themable variable generator -/

/-- C2: for every themeable-options object and extended palette,
`getBaseThemableColors` returns exactly three top-level contexts — the
selector `:root, .light` with the resolved light background, the media query
`@media (prefers-color-scheme: dark)` nesting a `:root` with the resolved
dark background, and the selector `.dark` with that same resolved dark
background — each a single declaration of the fixed custom property
`--wg-background`. -/
theorem c2_themable_output_shape (colors : Option ThemeableColorOptions)
    (themeColors : Option Colors) :
    ∃ light dark : JSStr,
      getBaseThemableColors colors themeColors =
        [ (":root, .light", CSSTree.leaf [("--wg-background", light)])
        , ("@media (prefers-color-scheme: dark)",
            CSSTree.node [(":root", CSSTree.leaf [("--wg-background", dark)])])
        , (".dark", CSSTree.leaf [("--wg-background", dark)]) ] :=
  ⟨lightBgColor colors themeColors, darkBgColor colors themeColors, rfl⟩

/-- C3 counterexample: with no user-specified background but an extended
palette that happens to contain the built-in default light color literal as
a key, the value placed in the `:root, .light` context is that key's
resolution, not the built-in default. -/
theorem c3_resolution_counterexample :
    alistLookup
        (getBaseThemableColors none (some [("#FFFFFF", PaletteEntry.lit "#123456")]))
        ":root, .light"
      = some (CSSTree.leaf [("--wg-background", JSStr.str "#123456")])
    ∧ JSStr.str "#123456" ≠ JSStr.str defaultLightBgColor :=
  ⟨rfl, by decide⟩

/-- C3 (amended): per mode, a user-specified background is resolved against
the extended palette when supplied and the default palette otherwise; when
no background is specified, the built-in default base color is itself passed
through the resolver against that same palette — which yields the built-in
default whenever it is not a key of that palette; in particular, with no
arguments the three contexts hold the built-in default light and dark base
colors. -/
theorem c3_resolution_order :
    (∀ c tc bg, userLightBackground c = some bg →
      lightBgColor c tc = getColorFromPalette bg (tc.getD palette))
    ∧ (∀ c tc, userLightBackground c = none →
      lightBgColor c tc = getColorFromPalette defaultLightBgColor (tc.getD palette))
    ∧ (∀ c tc, userLightBackground c = none →
      defaultLightBgColor ∉ keysOf (tc.getD palette) →
      lightBgColor c tc = JSStr.str defaultLightBgColor)
    ∧ (∀ c tc bg, userDarkBackground c = some bg →
      darkBgColor c tc = getColorFromPalette bg (tc.getD palette))
    ∧ (∀ c tc, userDarkBackground c = none →
      darkBgColor c tc = getColorFromPalette defaultDarkBgColor (tc.getD palette))
    ∧ (∀ c tc, userDarkBackground c = none →
      defaultDarkBgColor ∉ keysOf (tc.getD palette) →
      darkBgColor c tc = JSStr.str defaultDarkBgColor)
    ∧ getBaseThemableColors none none =
        [ (":root, .light", CSSTree.leaf [("--wg-background", JSStr.str defaultLightBgColor)])
        , ("@media (prefers-color-scheme: dark)",
            CSSTree.node
              [(":root", CSSTree.leaf [("--wg-background", JSStr.str defaultDarkBgColor)])])
        , (".dark", CSSTree.leaf [("--wg-background", JSStr.str defaultDarkBgColor)]) ] := by
  refine ⟨?_, ?_, ?_, ?_, ?_, ?_, ?_⟩
  · intro c tc bg h
    unfold lightBgColor
    rw [h]
    rfl
  · intro c tc h
    unfold lightBgColor
    rw [h]
    rfl
  · intro c tc h hkeys
    unfold lightBgColor
    rw [h]
    exact getColorFromPalette_not_mem _ _ hkeys (by decide)
  · intro c tc bg h
    unfold darkBgColor
    rw [h]
    rfl
  · intro c tc h
    unfold darkBgColor
    rw [h]
    rfl
  · intro c tc h hkeys
    unfold darkBgColor
    rw [h]
    exact getColorFromPalette_not_mem _ _ hkeys (by decide)
  · rfl

theorem c3_resolution_order_witness :
    lightBgColor
        (some (ThemeableColorOptions.mk (some (ModeColorOptions.mk (some "wg-blue"))) none))
        none
      = getColorFromPalette "wg-blue" palette
    ∧ darkBgColor none none = JSStr.str defaultDarkBgColor :=
  ⟨c3_resolution_order.1 _ none "wg-blue" rfl,
   c3_resolution_order.2.2.2.2.2.1 none none rfl (by decide)⟩

/-! ## Lemmas about the utility expander -/

theorem hyphenDEFAULT_eq : ("-DEFAULT" : String) = "-" ++ "DEFAULT" := rfl

theorem fam_classes_nodup (name : String) (fam : List (String × String))
    (h : (keysOf fam).Nodup) :
    (fam.map (fun q => shadedClassName name q.1)).Nodup := by
  have he : fam.map (fun q => shadedClassName name q.1)
      = (fam.map Prod.fst).map (shadedClassName name) := by
    rw [List.map_map]
    rfl
  rw [he]
  exact List.Nodup.map (shadedClassName_injective name) h

theorem array_classes_nodup (name : String) (elems : List String) :
    ((arrayEntries elems).map (fun q => shadedClassName name q.1)).Nodup := by
  have he : (arrayEntries elems).map (fun q => shadedClassName name q.1)
      = (elems.enum.map Prod.fst).map (fun i => shadedClassName name (natKey i)) := by
    unfold arrayEntries
    rw [List.map_map, List.map_map]
    rfl
  rw [he]
  refine List.Nodup.map ?_ (List.nodup_enum_map_fst elems)
  intro i j hij
  exact natKey_injective (shadedClassName_injective name hij)

theorem createShaded_eq_map (name : String) (fam : List (String × String))
    (h : (fam.map (fun q => shadedClassName name q.1)).Nodup) :
    createShadedColorUtility name fam
      = fam.map (fun q => (shadedClassName name q.1, BgDecl.mk q.2 q.2)) := by
  unfold createShadedColorUtility
  have := foldl_setKey_eq_append (fun q : String × String => shadedClassName name q.1)
      (fun q : String × String => BgDecl.mk q.2 q.2) fam [] h (by intro a _; simp [keysOf])
  simpa using this

theorem keysOf_map_pairs {β : Type} (f : String × String → String)
    (g : String × String → β) (l : List (String × String)) :
    keysOf (l.map (fun q => (f q, g q))) = l.map f := by
  unfold keysOf
  rw [List.map_map]
  rfl

theorem objectAssign_nil {β : Type} (src : List (String × β))
    (h : (keysOf src).Nodup) : objectAssign [] src = src := by
  unfold objectAssign
  have := foldl_setKey_eq_append (Prod.fst : String × β → String)
      (Prod.snd : String × β → β) src [] h (by intro a _; simp [keysOf])
  simpa using this

/-! ## Claims about the utility expander -/

/-- C1: for a literal entry the expander emits exactly the one class
`.wg-background-{name}`; for a shaded family it emits `.wg-background-{name}`
for the `DEFAULT` shade and `.wg-background-{name}-{shade}` for every other
shade (and no class suffixed `-DEFAULT` is ever emitted for the family);
every emitted class sets both `backgroundColor` and the `--wg-background`
custom property to the entry's (or shade's) value. -/
theorem c1_expander_classes :
    (∀ name v, createSimpleColorUtility name v
        = [(".wg-background-" ++ name, BgDecl.mk v v)])
    ∧ (∀ name fam, (keysOf fam).Nodup →
        createShadedColorUtility name fam
          = fam.map (fun q => (shadedClassName name q.1, BgDecl.mk q.2 q.2)))
    ∧ (∀ name fam,
        ".wg-background-" ++ name ++ "-DEFAULT" ∉ keysOf (createShadedColorUtility name fam))
    ∧ (∀ name v, generateExtendedColorUtilities [(name, JSValue.vstr v)]
        = Except.ok [(".wg-background-" ++ name, BgDecl.mk v v)])
    ∧ (∀ name fam, (keysOf fam).Nodup →
        generateExtendedColorUtilities [(name, JSValue.vobj fam)]
          = Except.ok (fam.map (fun q => (shadedClassName name q.1, BgDecl.mk q.2 q.2)))) := by
  refine ⟨fun name v => rfl, ?_, ?_, fun name v => rfl, ?_⟩
  · intro name fam h
    exact createShaded_eq_map name fam (fam_classes_nodup name fam h)
  · intro name fam hmem
    unfold createShadedColorUtility at hmem
    rcases mem_keysOf_foldl_setKey (fun q : String × String => shadedClassName name q.1)
        (fun q : String × String => BgDecl.mk q.2 q.2) fam [] _ hmem with h2 | ⟨q, _, he⟩
    · simp [keysOf] at h2
    · by_cases hq : q.1 = "DEFAULT"
      · rw [shadedClassName, if_pos hq] at he
        exact string_ne_append_of_pos (".wg-background-" ++ name) "-DEFAULT"
          (by decide) he.symm
      · rw [shadedClassName, if_neg hq] at he
        rw [hyphenDEFAULT_eq, ← String.append_assoc] at he
        exact hq (string_append_cancel_left _ _ _ he).symm
  · intro name fam h
    have h1 : generateExtendedColorUtilities [(name, JSValue.vobj fam)]
        = Except.ok (objectAssign [] (createShadedColorUtility name fam)) := rfl
    rw [h1, createShaded_eq_map name fam (fam_classes_nodup name fam h),
      objectAssign_nil _ ((keysOf_map_pairs _ _ fam) ▸ fam_classes_nodup name fam h)]

theorem c1_expander_classes_witness :
    generateExtendedColorUtilities
        [("blue", JSValue.vobj [("DEFAULT", "#0000FF"), ("100", "#AACCFF")])]
      = Except.ok [(".wg-background-blue", BgDecl.mk "#0000FF" "#0000FF"),
          (".wg-background-blue-100", BgDecl.mk "#AACCFF" "#AACCFF")] := by
  have h := c1_expander_classes.2.2.2.2 "blue"
    [("DEFAULT", "#0000FF"), ("100", "#AACCFF")] (by decide)
  exact h

/-- C8: for a shaded family with no `DEFAULT` shade, the expander emits only
the suffixed classes `.wg-background-{name}-{shade}` and omits the unshaded
class `.wg-background-{name}`; no error is raised (the function is total). -/
theorem c8_missing_default (name : String) (fam : List (String × String))
    (hnd : (keysOf fam).Nodup) (hD : "DEFAULT" ∉ keysOf fam) :
    createShadedColorUtility name fam
      = fam.map (fun q => (".wg-background-" ++ name ++ "-" ++ q.1, BgDecl.mk q.2 q.2))
    ∧ ".wg-background-" ++ name ∉ keysOf (createShadedColorUtility name fam) := by
  have hmap := createShaded_eq_map name fam (fam_classes_nodup name fam hnd)
  have hcongr : fam.map (fun q => (shadedClassName name q.1, BgDecl.mk q.2 q.2))
      = fam.map (fun q => (".wg-background-" ++ name ++ "-" ++ q.1, BgDecl.mk q.2 q.2)) := by
    apply List.map_congr_left
    intro q hq
    have hne : q.1 ≠ "DEFAULT" := fun he => hD (he ▸ List.mem_map_of_mem Prod.fst hq)
    simp [shadedClassName, hne]
  refine ⟨hmap.trans hcongr, ?_⟩
  rw [hmap.trans hcongr]
  intro hmem
  rw [keysOf_map_pairs _ _ fam] at hmem
  rcases List.mem_map.1 hmem with ⟨q, _, he⟩
  rw [String.append_assoc] at he
  have hpos : 0 < ("-" ++ q.1).length := by
    have h1 : ("-" : String).length = 1 := rfl
    rw [String.length_append, h1]
    omega
  exact string_ne_append_of_pos (".wg-background-" ++ name) ("-" ++ q.1) hpos he.symm

theorem c8_missing_default_witness :
    createShadedColorUtility "teal" [("100", "#AA0000"), ("200", "#BB0000")]
      = [(".wg-background-teal-100", BgDecl.mk "#AA0000" "#AA0000"),
          (".wg-background-teal-200", BgDecl.mk "#BB0000" "#BB0000")]
    ∧ ".wg-background-teal"
        ∉ keysOf (createShadedColorUtility "teal" [("100", "#AA0000"), ("200", "#BB0000")]) :=
  c8_missing_default "teal" [("100", "#AA0000"), ("200", "#BB0000")] (by decide) (by decide)

/-- C9: an array-valued entry is treated as a shaded family with the decimal
indices as shade names — `typeof` classifies the array as an object and
`Object.entries` enumerates index/value pairs — so one class
`.wg-background-{name}-{i}` is emitted per index, each setting both
properties to the element at that index. -/
theorem c9_array_as_shaded (name : String) (elems : List String) :
    generateExtendedColorUtilities [(name, JSValue.varr elems)]
      = Except.ok (elems.enum.map (fun q =>
          (".wg-background-" ++ name ++ "-" ++ natKey q.1, BgDecl.mk q.2 q.2))) := by
  have h1 : generateExtendedColorUtilities [(name, JSValue.varr elems)]
      = Except.ok (objectAssign [] (createShadedColorUtility name (arrayEntries elems))) := rfl
  rw [h1, createShaded_eq_map name _ (array_classes_nodup name elems),
    objectAssign_nil _ ((keysOf_map_pairs _ _ _) ▸ array_classes_nodup name elems)]
  have h2 : (arrayEntries elems).map (fun q => (shadedClassName name q.1, BgDecl.mk q.2 q.2))
      = elems.enum.map (fun q =>
          (".wg-background-" ++ name ++ "-" ++ natKey q.1, BgDecl.mk q.2 q.2)) := by
    unfold arrayEntries
    rw [List.map_map]
    apply List.map_congr_left
    intro q _
    simp [shadedClassName, natKey_ne_DEFAULT q.1]
  rw [h2]

/-! ## Totality of the expander -/

theorem generateGo_no_null_ok :
    ∀ (colors : List (String × JSValue)) (acc : List (String × BgDecl)),
      (∀ p ∈ colors, p.2 ≠ JSValue.vnull) →
      ∃ out, generateGo acc colors = Except.ok out := by
  intro colors
  induction colors with
  | nil => intro acc _; exact ⟨acc, rfl⟩
  | cons p rest ih =>
    intro acc hnn
    obtain ⟨n, v⟩ := p
    have hrest : ∀ q ∈ rest, q.2 ≠ JSValue.vnull :=
      fun q hq => hnn q (List.mem_cons_of_mem _ hq)
    cases v with
    | vstr s => exact ih _ hrest
    | vnum m => exact ih acc hrest
    | vbool b => exact ih acc hrest
    | vundef => exact ih acc hrest
    | vnull => exact absurd rfl (hnn (n, JSValue.vnull) (List.mem_cons_self _ _))
    | vobj fields => exact ih _ hrest
    | varr elems => exact ih _ hrest

theorem generateGo_filter :
    ∀ (colors : List (String × JSValue)) (acc : List (String × BgDecl)),
      generateGo acc colors
        = generateGo acc (colors.filter (fun p => relevantValue p.2)) := by
  intro colors
  induction colors with
  | nil => intro acc; rfl
  | cons p rest ih =>
    intro acc
    obtain ⟨n, v⟩ := p
    cases v with
    | vstr s =>
      rw [show ((n, JSValue.vstr s) :: rest).filter (fun p => relevantValue p.2)
          = (n, JSValue.vstr s) :: rest.filter (fun p => relevantValue p.2) from by
        rw [List.filter_cons]; simp [relevantValue]]
      exact ih _
    | vnull =>
      rw [show ((n, JSValue.vnull) :: rest).filter (fun p => relevantValue p.2)
          = (n, JSValue.vnull) :: rest.filter (fun p => relevantValue p.2) from by
        rw [List.filter_cons]; simp [relevantValue]]
      rfl
    | vobj fields =>
      rw [show ((n, JSValue.vobj fields) :: rest).filter (fun p => relevantValue p.2)
          = (n, JSValue.vobj fields) :: rest.filter (fun p => relevantValue p.2) from by
        rw [List.filter_cons]; simp [relevantValue]]
      exact ih _
    | varr elems =>
      rw [show ((n, JSValue.varr elems) :: rest).filter (fun p => relevantValue p.2)
          = (n, JSValue.varr elems) :: rest.filter (fun p => relevantValue p.2) from by
        rw [List.filter_cons]; simp [relevantValue]]
      exact ih _
    | vnum m =>
      rw [show ((n, JSValue.vnum m) :: rest).filter (fun p => relevantValue p.2)
          = rest.filter (fun p => relevantValue p.2) from by
        rw [List.filter_cons]; simp [relevantValue]]
      exact ih acc
    | vbool b =>
      rw [show ((n, JSValue.vbool b) :: rest).filter (fun p => relevantValue p.2)
          = rest.filter (fun p => relevantValue p.2) from by
        rw [List.filter_cons]; simp [relevantValue]]
      exact ih acc
    | vundef =>
      rw [show ((n, JSValue.vundef) :: rest).filter (fun p => relevantValue p.2)
          = rest.filter (fun p => relevantValue p.2) from by
        rw [List.filter_cons]; simp [relevantValue]]
      exact ih acc

/-- C6 counterexample: a `null` entry value has `typeof` `"object"`, reaches
`Object.entries` inside `createShadedColorUtility` and throws a `TypeError` —
the expander is not total and does not silently skip `null`. -/
theorem c6_null_throws_counterexample :
    generateExtendedColorUtilities [("oops", JSValue.vnull)]
      = Except.error "TypeError: Cannot convert undefined or null to object" := rfl

/-- C6 (amended): the expander never throws on inputs containing no `null`
value, and entries whose values are neither string nor `typeof`-object
(numbers, booleans, `undefined`) are silently skipped — the output is that of
the input with them removed; a `null` value, however, throws. -/
theorem c6_expander_total_on_null_free :
    (∀ colors : List (String × JSValue), (∀ p ∈ colors, p.2 ≠ JSValue.vnull) →
      ∃ out, generateExtendedColorUtilities colors = Except.ok out)
    ∧ (∀ colors : List (String × JSValue),
      generateExtendedColorUtilities colors
        = generateExtendedColorUtilities (colors.filter (fun p => relevantValue p.2))) :=
  ⟨fun colors h => generateGo_no_null_ok colors [] h,
   fun colors => generateGo_filter colors []⟩

theorem c6_expander_total_on_null_free_witness :
    ∃ out, generateExtendedColorUtilities
        [("n", JSValue.vnum 5), ("ok", JSValue.vstr "#FFF")] = Except.ok out :=
  c6_expander_total_on_null_free.1
    [("n", JSValue.vnum 5), ("ok", JSValue.vstr "#FFF")] (by decide)

/-! ## Class-name injectivity -/

theorem pairsOf_mem_keys :
    ∀ (colors : List (String × JSValue)) (n : String) (o : Option String),
      (n, o) ∈ pairsOf colors → n ∈ keysOf colors := by
  intro colors
  induction colors with
  | nil => intro n o h; simp [pairsOf] at h
  | cons p rest ih =>
    intro n o h
    obtain ⟨m, v⟩ := p
    have hk : keysOf ((m, v) :: rest) = m :: keysOf rest := rfl
    rw [hk, List.mem_cons]
    cases v with
    | vstr s =>
      simp only [pairsOf, List.mem_append, List.mem_singleton, Prod.mk.injEq] at h
      rcases h with ⟨h1, _⟩ | h1
      · exact Or.inl h1
      · exact Or.inr (ih n o h1)
    | vobj fields =>
      simp only [pairsOf, List.mem_append, List.mem_map, Prod.mk.injEq] at h
      rcases h with ⟨q, _, h1, _⟩ | h1
      · exact Or.inl h1.symm
      · exact Or.inr (ih n o h1)
    | varr elems =>
      simp only [pairsOf, List.mem_append, List.mem_map, Prod.mk.injEq] at h
      rcases h with ⟨q, _, h1, _⟩ | h1
      · exact Or.inl h1.symm
      · exact Or.inr (ih n o h1)
    | vnum k =>
      simp only [pairsOf, List.nil_append] at h
      exact Or.inr (ih n o h)
    | vbool b =>
      simp only [pairsOf, List.nil_append] at h
      exact Or.inr (ih n o h)
    | vundef =>
      simp only [pairsOf, List.nil_append] at h
      exact Or.inr (ih n o h)
    | vnull =>
      simp only [pairsOf, List.nil_append] at h
      exact Or.inr (ih n o h)

theorem pairsOf_none_mem :
    ∀ (colors : List (String × JSValue)) (n : String),
      (n, (none : Option String)) ∈ pairsOf colors →
      ∃ s, (n, JSValue.vstr s) ∈ colors := by
  intro colors
  induction colors with
  | nil => intro n h; simp [pairsOf] at h
  | cons p rest ih =>
    intro n h
    obtain ⟨m, v⟩ := p
    cases v with
    | vstr s =>
      simp only [pairsOf, List.mem_append, List.mem_singleton, Prod.mk.injEq] at h
      rcases h with ⟨h1, _⟩ | h1
      · exact ⟨s, by rw [h1]; exact List.mem_cons_self _ _⟩
      · obtain ⟨s2, hs⟩ := ih n h1
        exact ⟨s2, List.mem_cons_of_mem _ hs⟩
    | vobj fields =>
      simp only [pairsOf, List.mem_append, List.mem_map, Prod.mk.injEq] at h
      rcases h with ⟨q, _, _, h2⟩ | h1
      · exact absurd h2 (by simp)
      · obtain ⟨s2, hs⟩ := ih n h1
        exact ⟨s2, List.mem_cons_of_mem _ hs⟩
    | varr elems =>
      simp only [pairsOf, List.mem_append, List.mem_map, Prod.mk.injEq] at h
      rcases h with ⟨q, _, _, h2⟩ | h1
      · exact absurd h2 (by simp)
      · obtain ⟨s2, hs⟩ := ih n h1
        exact ⟨s2, List.mem_cons_of_mem _ hs⟩
    | vnum k =>
      simp only [pairsOf, List.nil_append] at h
      obtain ⟨s2, hs⟩ := ih n h
      exact ⟨s2, List.mem_cons_of_mem _ hs⟩
    | vbool b =>
      simp only [pairsOf, List.nil_append] at h
      obtain ⟨s2, hs⟩ := ih n h
      exact ⟨s2, List.mem_cons_of_mem _ hs⟩
    | vundef =>
      simp only [pairsOf, List.nil_append] at h
      obtain ⟨s2, hs⟩ := ih n h
      exact ⟨s2, List.mem_cons_of_mem _ hs⟩
    | vnull =>
      simp only [pairsOf, List.nil_append] at h
      obtain ⟨s2, hs⟩ := ih n h
      exact ⟨s2, List.mem_cons_of_mem _ hs⟩

theorem pairsOf_some_mem :
    ∀ (colors : List (String × JSValue)) (n s : String),
      (n, some s) ∈ pairsOf colors →
      ∃ v, (n, v) ∈ colors ∧ ∀ t, v ≠ JSValue.vstr t := by
  intro colors
  induction colors with
  | nil => intro n s h; simp [pairsOf] at h
  | cons p rest ih =>
    intro n s h
    obtain ⟨m, v⟩ := p
    cases v with
    | vstr s0 =>
      simp only [pairsOf, List.mem_append, List.mem_singleton, Prod.mk.injEq] at h
      rcases h with ⟨_, h2⟩ | h1
      · exact absurd h2 (by simp)
      · obtain ⟨v2, hv, hne⟩ := ih n s h1
        exact ⟨v2, List.mem_cons_of_mem _ hv, hne⟩
    | vobj fields =>
      simp only [pairsOf, List.mem_append, List.mem_map, Prod.mk.injEq] at h
      rcases h with ⟨q, _, h1, _⟩ | h1
      · exact ⟨JSValue.vobj fields, by rw [← h1]; exact List.mem_cons_self _ _,
          fun t => by simp⟩
      · obtain ⟨v2, hv, hne⟩ := ih n s h1
        exact ⟨v2, List.mem_cons_of_mem _ hv, hne⟩
    | varr elems =>
      simp only [pairsOf, List.mem_append, List.mem_map, Prod.mk.injEq] at h
      rcases h with ⟨q, _, h1, _⟩ | h1
      · exact ⟨JSValue.varr elems, by rw [← h1]; exact List.mem_cons_self _ _,
          fun t => by simp⟩
      · obtain ⟨v2, hv, hne⟩ := ih n s h1
        exact ⟨v2, List.mem_cons_of_mem _ hv, hne⟩
    | vnum k =>
      simp only [pairsOf, List.nil_append] at h
      obtain ⟨v2, hv, hne⟩ := ih n s h
      exact ⟨v2, List.mem_cons_of_mem _ hv, hne⟩
    | vbool b =>
      simp only [pairsOf, List.nil_append] at h
      obtain ⟨v2, hv, hne⟩ := ih n s h
      exact ⟨v2, List.mem_cons_of_mem _ hv, hne⟩
    | vundef =>
      simp only [pairsOf, List.nil_append] at h
      obtain ⟨v2, hv, hne⟩ := ih n s h
      exact ⟨v2, List.mem_cons_of_mem _ hv, hne⟩
    | vnull =>
      simp only [pairsOf, List.nil_append] at h
      obtain ⟨v2, hv, hne⟩ := ih n s h
      exact ⟨v2, List.mem_cons_of_mem _ hv, hne⟩

theorem alist_value_unique {α : Type} :
    ∀ (l : List (String × α)), (keysOf l).Nodup →
      ∀ (k : String) (a b : α), (k, a) ∈ l → (k, b) ∈ l → a = b := by
  intro l
  induction l with
  | nil => intro _ k a b h _; simp at h
  | cons p t ih =>
    intro hnd k a b ha hb
    simp only [keysOf, List.map_cons, List.nodup_cons] at hnd
    rcases List.mem_cons.1 ha with ha1 | ha1 <;> rcases List.mem_cons.1 hb with hb1 | hb1
    · have h2 : (k, a) = (k, b) := ha1.trans hb1.symm
      simpa using h2
    · exfalso
      have hk2 : k ∈ List.map Prod.fst t := List.mem_map.2 ⟨(k, b), hb1, rfl⟩
      have hkm : p.1 ∈ List.map Prod.fst t := by
        rw [← ha1]
        exact hk2
      exact hnd.1 hkm
    · exfalso
      have hk2 : k ∈ List.map Prod.fst t := List.mem_map.2 ⟨(k, a), ha1, rfl⟩
      have hkm : p.1 ∈ List.map Prod.fst t := by
        rw [← hb1]
        exact hk2
      exact hnd.1 hkm
    · exact ih hnd.2 k a b ha1 hb1

theorem pairClass_eq_analysis (n1 n2 : String) (o1 o2 : Option String)
    (h1 : '-' ∉ n1.data) (h2 : '-' ∉ n2.data)
    (h : pairClass (n1, o1) = pairClass (n2, o2)) :
    n1 = n2
    ∧ (o1 = o2 ∨ (o1 = none ∧ o2 = some "DEFAULT")
        ∨ (o1 = some "DEFAULT" ∧ o2 = none)) := by
  cases o1 with
  | none =>
    cases o2 with
    | none => exact ⟨unshaded_eq_unshaded n1 n2 h, Or.inl rfl⟩
    | some s2 =>
      by_cases e2 : s2 = "DEFAULT"
      · refine ⟨unshaded_eq_unshaded n1 n2 ?_, Or.inr (Or.inl ⟨rfl, by rw [e2]⟩)⟩
        simpa [pairClass, shadedClassName, e2] using h
      · exfalso
        have hq : (".wg-background-" ++ n1 : String)
            = ".wg-background-" ++ n2 ++ "-" ++ s2 := by
          simpa [pairClass, shadedClassName, e2] using h
        exact unshaded_ne_shaded n1 n2 s2 h1 hq
  | some s1 =>
    cases o2 with
    | none =>
      by_cases e1 : s1 = "DEFAULT"
      · refine ⟨unshaded_eq_unshaded n1 n2 ?_, Or.inr (Or.inr ⟨by rw [e1], rfl⟩)⟩
        simpa [pairClass, shadedClassName, e1] using h
      · exfalso
        have hq : (".wg-background-" ++ n1 ++ "-" ++ s1 : String)
            = ".wg-background-" ++ n2 := by
          simpa [pairClass, shadedClassName, e1] using h
        exact unshaded_ne_shaded n2 n1 s1 h2 hq.symm
    | some s2 =>
      by_cases e1 : s1 = "DEFAULT" <;> by_cases e2 : s2 = "DEFAULT"
      · refine ⟨unshaded_eq_unshaded n1 n2 ?_, Or.inl (by rw [e1, e2])⟩
        simpa [pairClass, shadedClassName, e1, e2] using h
      · exfalso
        have hq : (".wg-background-" ++ n1 : String)
            = ".wg-background-" ++ n2 ++ "-" ++ s2 := by
          simpa [pairClass, shadedClassName, e1, e2] using h
        exact unshaded_ne_shaded n1 n2 s2 h1 hq
      · exfalso
        have hq : (".wg-background-" ++ n1 ++ "-" ++ s1 : String)
            = ".wg-background-" ++ n2 := by
          simpa [pairClass, shadedClassName, e1, e2] using h
        exact unshaded_ne_shaded n2 n1 s1 h2 hq.symm
      · have hq : (".wg-background-" ++ n1 ++ "-" ++ s1 : String)
            = ".wg-background-" ++ n2 ++ "-" ++ s2 := by
          simpa [pairClass, shadedClassName, e1, e2] using h
        obtain ⟨hn, hs⟩ := shaded_eq_shaded n1 n2 s1 s2 h1 h2 hq
        exact ⟨hn, Or.inl (by rw [hs])⟩

/-- C7 counterexample: the shaded pair `("blue", "100")` and the literal pair
`("blue-100", unshaded)` both occur in one input mapping and both produce the
class name `.wg-background-blue-100` — the class-name construction is not
injective over `(colorName, shade)` pairs. -/
theorem c7_classname_collision_counterexample :
    ("blue", some "100") ∈ pairsOf
        [("blue", JSValue.vobj [("100", "#111111")]), ("blue-100", JSValue.vstr "#222222")]
    ∧ ("blue-100", (none : Option String)) ∈ pairsOf
        [("blue", JSValue.vobj [("100", "#111111")]), ("blue-100", JSValue.vstr "#222222")]
    ∧ (("blue", some "100") : String × Option String) ≠ ("blue-100", none)
    ∧ pairClass ("blue", some "100") = pairClass ("blue-100", none) := by
  refine ⟨?_, ?_, by decide, rfl⟩
  · simp [pairsOf, arrayEntries]
  · simp [pairsOf, arrayEntries]

/-- C7 (amended): over any input mapping whose color names are pairwise
distinct and hyphen-free, no two distinct `(colorName, shade)` pairs — the
unshaded/literal case as a distinguished shade — produce the same generated
class name; with hyphenated names distinct pairs can collide (for example
`("blue", "100")` and the literal `"blue-100"`). -/
theorem c7_classname_injective_hyphen_free :
    ∀ colors : List (String × JSValue), (keysOf colors).Nodup →
      (∀ n ∈ keysOf colors, '-' ∉ n.data) →
      ∀ p ∈ pairsOf colors, ∀ q ∈ pairsOf colors,
        pairClass p = pairClass q → p = q := by
  intro colors hnd hhyph p hp q hq hcls
  obtain ⟨n1, o1⟩ := p
  obtain ⟨n2, o2⟩ := q
  have h1d := hhyph n1 (pairsOf_mem_keys colors n1 o1 hp)
  have h2d := hhyph n2 (pairsOf_mem_keys colors n2 o2 hq)
  obtain ⟨hn, hcase⟩ := pairClass_eq_analysis n1 n2 o1 o2 h1d h2d hcls
  subst hn
  rcases hcase with hc | ⟨hc1, hc2⟩ | ⟨hc1, hc2⟩
  · rw [hc]
  · exfalso
    subst hc1
    subst hc2
    obtain ⟨s, hsmem⟩ := pairsOf_none_mem colors n1 hp
    obtain ⟨v, hvmem, hvne⟩ := pairsOf_some_mem colors n1 "DEFAULT" hq
    exact hvne s (alist_value_unique colors hnd n1 v (JSValue.vstr s) hvmem hsmem)
  · exfalso
    subst hc1
    subst hc2
    obtain ⟨s, hsmem⟩ := pairsOf_none_mem colors n1 hq
    obtain ⟨v, hvmem, hvne⟩ := pairsOf_some_mem colors n1 "DEFAULT" hp
    exact hvne s (alist_value_unique colors hnd n1 v (JSValue.vstr s) hvmem hsmem)

theorem c7_classname_injective_hyphen_free_witness :
    (("blue", some "100") : String × Option String) = ("blue", some "100") :=
  c7_classname_injective_hyphen_free [("blue", JSValue.vobj [("100", "#111111")])]
    (by decide) (by decide)
    ("blue", some "100") (by simp [pairsOf])
    ("blue", some "100") (by simp [pairsOf]) rfl

/-! ## Merge order of the expander output -/

theorem generateGo_ok_eq :
    ∀ (colors : List (String × JSValue)) (acc out : List (String × BgDecl)),
      (∀ p ∈ colors, ∀ fields, p.2 = JSValue.vobj fields → (keysOf fields).Nodup) →
      generateGo acc colors = Except.ok out →
      out = (flatEmits colors).foldl (fun t q => setKey t q.1 q.2) acc := by
  intro colors
  induction colors with
  | nil =>
    intro acc out _ h
    simp only [generateGo, Except.ok.injEq] at h
    simp only [flatEmits, List.foldl_nil]
    exact h.symm
  | cons p rest ih =>
    intro acc out hwf h
    obtain ⟨n, v⟩ := p
    have hwfrest : ∀ q ∈ rest, ∀ fields, q.2 = JSValue.vobj fields → (keysOf fields).Nodup :=
      fun q hq => hwf q (List.mem_cons_of_mem _ hq)
    cases v with
    | vstr s =>
      have h2 := ih (objectAssign acc (createSimpleColorUtility n s)) out hwfrest h
      rw [h2]
      simp only [flatEmits, List.foldl_append]
      rfl
    | vnull => exact Except.noConfusion h
    | vnum m =>
      have h2 := ih acc out hwfrest h
      rw [h2]
      simp only [flatEmits, List.foldl_append]
      rfl
    | vbool b =>
      have h2 := ih acc out hwfrest h
      rw [h2]
      simp only [flatEmits, List.foldl_append]
      rfl
    | vundef =>
      have h2 := ih acc out hwfrest h
      rw [h2]
      simp only [flatEmits, List.foldl_append]
      rfl
    | vobj fields =>
      have hndf := hwf (n, JSValue.vobj fields) (List.mem_cons_self _ _) fields rfl
      have h2 := ih (objectAssign acc (createShadedColorUtility n fields)) out hwfrest h
      rw [h2, createShaded_eq_map n fields (fam_classes_nodup n fields hndf)]
      simp only [flatEmits, List.foldl_append]
      rfl
    | varr elems =>
      have h2 := ih (objectAssign acc (createShadedColorUtility n (arrayEntries elems)))
        out hwfrest h
      rw [h2, createShaded_eq_map n (arrayEntries elems) (array_classes_nodup n elems)]
      simp only [flatEmits, List.foldl_append]
      rfl

/-- C10: on any input the expander accepts (well-formed object fields, no
thrown error), the merged output binds each class name exactly once, and the
binding of every class name equals its last emission in input enumeration
order — later entries overwrite earlier ones; non-colliding classes keep
their own emission. -/
theorem c10_later_entries_overwrite (colors : List (String × JSValue))
    (out : List (String × BgDecl))
    (hwf : ∀ p ∈ colors, ∀ fields, p.2 = JSValue.vobj fields → (keysOf fields).Nodup)
    (hok : generateExtendedColorUtilities colors = Except.ok out) :
    (keysOf out).Nodup
    ∧ ∀ k, alistLookup out k = alistLookup (flatEmits colors).reverse k := by
  have hout := generateGo_ok_eq colors [] out hwf hok
  constructor
  · rw [hout]
    exact nodup_keys_foldl_setKey (flatEmits colors) [] (by simp [keysOf])
  · intro k
    rw [hout, alistLookup_foldl_setKey]
    rw [show alistLookup ([] : List (String × BgDecl)) k = none from rfl, optOr_none_right]

theorem c10_later_entries_overwrite_witness :
    (keysOf [(".wg-background-blue-100", BgDecl.mk "#B" "#B")]).Nodup
    ∧ alistLookup [(".wg-background-blue-100", BgDecl.mk "#B" "#B")] ".wg-background-blue-100"
        = alistLookup (flatEmits
            [("blue", JSValue.vobj [("100", "#A")]), ("blue-100", JSValue.vstr "#B")]).reverse
            ".wg-background-blue-100" := by
  have h := c10_later_entries_overwrite
    [("blue", JSValue.vobj [("100", "#A")]), ("blue-100", JSValue.vstr "#B")]
    [(".wg-background-blue-100", BgDecl.mk "#B" "#B")]
    (by
      intro p hp fields hf
      simp at hp
      rcases hp with rfl | rfl
      · cases hf
        decide
      · cases hf)
    rfl
  exact ⟨h.1, h.2 ".wg-background-blue-100"⟩

end Wedges
